import Mathlib

/-!
Verification development for the JSON localization storage module
(`translate/storage/jsonl10n.py`): a bidirectional codec between
hierarchical JSON documents and flat lists of addressable translation
units, with dialect variants (plain nested, i18next plurals, go-i18n,
ARB).

The embedding models the parsed JSON value as an inductive tree.  Object
key order and array order are significant (the source parses with
`object_pairs_hook=OrderedDict`), so objects are association lists in
document order.  Scalar leaves are modelled as strings: every claim under
verification concerns string-valued leaves, and for string leaves the
source's type-conversion step (`converttarget`) is the identity.
-/

set_option autoImplicit false

/-- A parsed JSON value with order-preserving objects. -/
inductive Json where
  | str : String → Json
  | arr : List Json → Json
  | obj : List (String × Json) → Json
deriving Repr

/-- Keys of an object's field list, in document order. -/
def keysOf (fs : List (String × Json)) : List String := fs.map Prod.fst

/-- Test for `isinstance(x, dict)` on an optional node. -/
def isDictNode : Option Json → Bool
  | some (Json.obj _) => true
  | _ => false

/-- Test for `isinstance(x, list)` on an optional node. -/
def isListNode : Option Json → Bool
  | some (Json.arr _) => true
  | _ => false

/-- Field list of an object value (`serialize` only ever merges dicts). -/
def Json.objFields : Json → List (String × Json)
  | .obj fs => fs
  | _ => []

/-- Python `p.isPrefixOfChars l` style check: the first list leads the second. -/
def leads : List Char → List Char → Bool
  | [], _ => true
  | _ :: _, [] => false
  | a :: p, b :: l => a = b && leads p l

/-- Python `s.startswith(p)`. -/
def pyStartsWith (s p : String) : Bool := leads p.toList s.toList

/-- Python `s.endswith(p)`. -/
def pyEndsWith (s p : String) : Bool := leads p.toList.reverse s.toList.reverse

/-- Python `s[:-n]` (drop the last `n` characters, empty when `n ≥ len`). -/
def pyDropRight (s : String) (n : Nat) : String :=
  String.mk (s.toList.take (s.toList.length - n))

/-- Python `s.split(sep)` for a one-character separator: always returns at
least one (possibly empty) piece. -/
def splitOnChar (sep : Char) : List Char → List (List Char)
  | [] => [[]]
  | c :: cs =>
    match splitOnChar sep cs with
    | [] => [[]]
    | h :: t => if c = sep then [] :: h :: t else (c :: h) :: t

/-- Python `s.rsplit(sep, 1)[0]` for one-character `sep`: the part before
the last occurrence of `sep`, or the whole string when `sep` is absent. -/
def pyRsplitBase (sep : Char) (s : String) : String :=
  if s.toList.contains sep then
    String.mk (((s.toList.reverse.dropWhile (fun c => c ≠ sep)).drop 1).reverse)
  else s

/-- Python `s.rsplit(sep, 1)[-1]` for one-character `sep`: the part after
the last occurrence of `sep`, or the whole string when `sep` is absent. -/
def pyRsplitTail (sep : Char) (s : String) : String :=
  String.mk ((s.toList.reverse.takeWhile (fun c => c ≠ sep)).reverse)

/-- Python `s.isdigit()` (restricted to ASCII digits, which is all the
source's plural bookkeeping produces or consumes). -/
def pyIsDigit (s : String) : Bool :=
  !s.toList.isEmpty && s.toList.all Char.isDigit

/-- The `name_node` / `name_last_node` arguments threaded through
`_extract_units`: `None`, an object key (`str`), or an array index
(`int`). -/
inductive PyName where
  | none : PyName
  | str : String → PyName
  | int : Nat → PyName
deriving DecidableEq, Repr

/-- Python `name in stop` where `stop` is a set of strings: an `int` or
`None` name is never a member. -/
def pyNameIn (n : PyName) (stop : List String) : Bool :=
  match n with
  | .str s => stop.contains s
  | _ => false

/-- A `JsonUnit` as produced by extraction: `_id` (set via `setid` to the
accumulated path), `_item` (the name at the immediate parent level) and
the target value.  The modelled units are string-typed and unedited, so
`converttarget` returns the stored string unchanged. -/
structure JsonUnit where
  id : String
  item : PyName
  target : String
deriving DecidableEq, Repr

/-- Conversion of the target back to its JSON form (`converttarget`);
identity for string-typed units. -/
def JsonUnit.converttarget (u : JsonUnit) : Json := Json.str u.target

namespace JsonFile

mutual

/-- Recursive unit extraction, `JsonFile._extract_units`: walk objects
attaching `.key`, arrays attaching `[i]` while inheriting the parent
object key as the array's name, and emit a unit at a leaf subject to the
`stop` filter. -/
def extract_units (data : Json) (stop : Option (List String)) (prev : String)
    (name_node : PyName) (name_last_node : PyName) (last_node : Option Json) :
    List JsonUnit :=
  match data with
  | .obj fs => extract_units_dict fs stop prev (Json.obj fs)
  | .arr xs => extract_units_list xs 0 stop prev name_node (Json.arr xs)
  | .str s =>
    if stop.isNone
        || (isDictNode last_node && pyNameIn name_node (stop.getD []))
        || (isListNode last_node && pyNameIn name_last_node (stop.getD [])) then
      [{ id := prev, item := name_node, target := s }]
    else
      []

def extract_units_dict (fs : List (String × Json)) (stop : Option (List String))
    (prev : String) (data : Json) : List JsonUnit :=
  match fs with
  | [] => []
  | (k, v) :: rest =>
    extract_units v stop (prev ++ "." ++ k) (.str k) .none (some data)
      ++ extract_units_dict rest stop prev data

def extract_units_list (xs : List Json) (i : Nat) (stop : Option (List String))
    (prev : String) (name_node : PyName) (data : Json) : List JsonUnit :=
  match xs with
  | [] => []
  | x :: rest =>
    extract_units x stop (prev ++ "[" ++ toString i ++ "]") (.int i) name_node
        (some data)
      ++ extract_units_list rest (i + 1) stop prev name_node data

end

/-- Top-level extraction as performed by `parse`:
`_extract_units(self._file, stop=self._filter)`. -/
def extract (t : Json) (filter : Option (List String)) : List JsonUnit :=
  extract_units t filter "" .none .none none

mutual

/-- The `merge` helper nested in `JsonFile.serialize`: deep merge of the
second dict into the first.  On a key collision two dicts merge
recursively, two lists concatenate, anything else is overwritten by the
later value; fresh keys are appended at the end. -/
def merge : List (String × Json) → List (String × Json) → List (String × Json)
  | d1, [] => d1
  | d1, (k, v) :: rest => merge (mergeKey d1 k v) rest

def mergeKey : List (String × Json) → String → Json → List (String × Json)
  | [], k, v => [(k, v)]
  | (k1, v1) :: ds, k, v =>
    if k1 = k then (k1, mergeVals v1 v) :: ds
    else (k1, v1) :: mergeKey ds k v

def mergeVals : Json → Json → Json
  | Json.obj o1, Json.obj o2 => Json.obj (merge o1 o2)
  | Json.arr a1, Json.arr a2 => Json.arr (a1 ++ a2)
  | _, v => v

end

end JsonFile

namespace JsonNestedUnit

/-- `JsonNestedUnit.getkey`: `self.getid().lstrip('.').split('.')`. -/
def getkey (u : JsonUnit) : List String :=
  (splitOnChar '.' (u.id.toList.dropWhile (fun c => c = '.'))).map String.mk

/-- One step of `JsonNestedUnit.getvalue`'s reversed walk: wrap `ret` in
`{k: ret}`, first replacing `k` by its part before `[` and wrapping `ret`
in a one-element list when `k` looks like an array segment
(`'[' in k and k[-1] == ']'`). -/
def wrapKey (k : String) (ret : Json) : Json :=
  if k.toList.contains '[' && k.toList.getLast? = some ']' then
    Json.obj [(String.mk ((splitOnChar '[' k.toList).headD []), Json.arr [ret])]
  else
    Json.obj [(k, ret)]

/-- `JsonNestedUnit.getvalue`: rebuild the nesting chain for this unit's
key around its converted target. -/
def getvalue (u : JsonUnit) : Json :=
  (getkey u).foldr wrapKey u.converttarget

end JsonNestedUnit

namespace JsonNestedFile

/-- `JsonFile.serialize` for the nested dialect: start from an empty
ordered dict and deep-merge every unit's `getvalue` fragment in unit
order; the result is the tree handed to `json.dumps`. -/
def serialize (us : List JsonUnit) : Json :=
  Json.obj
    (us.foldl (fun acc u => JsonFile.merge acc (JsonNestedUnit.getvalue u).objFields) [])

end JsonNestedFile

/-! ### Well-formedness of input trees

`goodKey`/`goodVal` delimit the trees for which the nested dialect's
round trip can be exact: object keys must be nonempty and free of the
path metacharacters `.` and `[` (which `getkey`/`getvalue` would
reinterpret), keys are unique within an object (guaranteed for parsed
JSON, where objects are dicts), containers are nonempty (an empty
container yields no units and cannot be rebuilt), and array elements are
scalar leaves (the `[i]` path segments do not nest). -/

/-- A key the path syntax can carry verbatim. -/
def goodKey (k : String) : Bool :=
  decide (k.toList ≠ [] ∧ '.' ∉ k.toList ∧ '[' ∉ k.toList)

mutual

/-- Trees the nested dialect round-trips exactly (see section header). -/
def goodVal : Json → Bool
  | .str _ => true
  | .arr xs => !xs.isEmpty && goodElems xs
  | .obj fs => !fs.isEmpty && goodFields fs

def goodElems : List Json → Bool
  | [] => true
  | .str _ :: rest => goodElems rest
  | _ => false

def goodFields : List (String × Json) → Bool
  | [] => true
  | (k, v) :: rest =>
    goodKey k && !(keysOf rest).contains k && goodVal v && goodFields rest

end

/-! ### Fragment shapes

`fragsOfVal k v` lists, in extraction order, the relative shapes of the
`getvalue` fragments of all units extracted below an object field
`(k, v)`, with the ancestor spine stripped: a leaf gives `{k: leaf}`, an
array element gives `{k: [element]}`, and a nested object's fragments are
wrapped one level deeper. -/

mutual

def fragsOfVal (k : String) : Json → List (List (String × Json))
  | .str s => [[(k, Json.str s)]]
  | .arr xs => xs.map (fun e => [(k, Json.arr [e])])
  | .obj fs => (fragsOfFields fs).map (fun F => [(k, Json.obj F)])

def fragsOfFields : List (String × Json) → List (List (String × Json))
  | [] => []
  | (k, v) :: rest => fragsOfVal k v ++ fragsOfFields rest

end

/-- The path string accumulated by the extractor after descending through
the object keys `segs` (each step appends `"." ++ k` to `prev`). -/
def renderPath (segs : List String) : String :=
  segs.foldl (fun p s => p ++ "." ++ s) ""

/-- The tree fragment obtained by wrapping `x` in the spine of the object
keys `segs` (innermost last). -/
def spineVal (segs : List String) (x : Json) : Json :=
  segs.foldr JsonNestedUnit.wrapKey x


/-- A unit value: a plain string, or a `multistring` holding ordered
plural forms. -/
inductive UVal where
  | s : String → UVal
  | ms : List String → UVal
deriving DecidableEq, Repr

/-- The `_item` of an i18next unit: absent, an object key, an array
index, or the list of plural keys of a plural group. -/
inductive ItemVal where
  | none : ItemVal
  | str : String → ItemVal
  | int : Nat → ItemVal
  | list : List String → ItemVal
deriving DecidableEq, Repr

/-- Conversion of a walk name to a unit item. -/
def itemOfName : PyName → ItemVal
  | .none => .none
  | .str s => .str s
  | .int n => .int n

/-- Python substring test `p in l` on character lists. -/
def subList (p : List Char) : List Char → Bool
  | [] => p.isEmpty
  | c :: t => leads p (c :: t) || subList p t

/-- Python substring test `p in s`. -/
def strContainsSub (s p : String) : Bool := subList p.toList s.toList

/-- String content of a scalar leaf (plural-form values are strings in
every input this dialect accepts; `multistring` would reject others). -/
def Json.asString : Json → String
  | .str s => s
  | _ => ""

/-- An `I18NextUnit`: id, item and a possibly-plural target. -/
structure I18NextUnit where
  id : String
  item : ItemVal
  target : UVal
deriving DecidableEq, Repr

namespace I18NextUnit

/-- `get_base` inside the `target` setter: the first current key, with
its last two characters dropped when it contains the substring `_0`
(the source tests `'_0' in item[0]`, not an `_0` suffix). -/
def get_base (item : List String) : String :=
  let h := item.headD ""
  if strContainsSub h "_0" then pyDropRight h 2 else h

/-- `get_plurals` inside the `target` setter: plural key names for
`count` forms — `[base, base_plural]` truncated when `count ≤ 2`, else
`base_0 .. base_(count-1)`. -/
def get_plurals (count : Nat) (base : String) : List String :=
  if count ≤ 2 then [base, base ++ "_plural"].take count
  else (List.range count).map (fun i => base ++ "_" ++ toString i)

/-- The `target` setter: a multistring first wraps a non-list `_item`
into a one-element list, then regenerates the plural key list via
`get_plurals`/`get_base` when the form count differs from the current
key count; a plain string demotes a plural unit back to `get_base` of
its keys.  `none` models the `TypeError` Python raises in `get_base`
when `_item` is an array index or absent (never the case for the units
this dialect creates). -/
def set_target (u : I18NextUnit) (t : UVal) : Option I18NextUnit :=
  match t with
  | .ms forms =>
    match u.item with
    | .int _ => none
    | .none => none
    | .str s =>
      let il := [s]
      let il' := if forms.length ≠ il.length
        then get_plurals forms.length (get_base il) else il
      some { u with item := .list il', target := t }
    | .list il =>
      let il' := if forms.length ≠ il.length
        then get_plurals forms.length (get_base il) else il
      some { u with item := .list il', target := t }
  | .s _ =>
    match u.item with
    | .list il => some { u with item := .str (get_base il), target := t }
    | _ => some { u with target := t }

/-- `I18NextUnit.getvalue`: a multistring unit emits one flat fragment
mapping each plural key to its form, nested in plain objects along the
unit's parent path (`getid().lstrip('.').split('.')[:-1]`); any other
unit behaves exactly as `JsonNestedUnit.getvalue`. -/
def getvalue (u : I18NextUnit) : Json :=
  match u.target with
  | .s v => JsonNestedUnit.getvalue { id := u.id, item := PyName.none, target := v }
  | .ms forms =>
    let items := match u.item with
      | .list l => l
      | _ => []
    let ret := Json.obj ((List.enum forms).map (fun p => (items.getD p.1 "", Json.str p.2)))
    let path := ((splitOnChar '.' (u.id.toList.dropWhile (fun c => c = '.'))).map
      String.mk).dropLast
    path.foldr (fun k r => Json.obj [(k, r)]) ret

end I18NextUnit

namespace I18NextFile

/-- `plurals_multiple`: bases of the keys ending in `_0`
(`key.rsplit('_', 1)[0]`). -/
def plurals_multiple (fs : List (String × Json)) : List String :=
  (fs.map Prod.fst).filterMap
    (fun k => if pyEndsWith k "_0" then some (pyRsplitBase '_' k) else none)

/-- `plurals_simple`: bases of the keys ending in `_plural`. -/
def plurals_simple (fs : List (String × Json)) : List String :=
  (fs.map Prod.fst).filterMap
    (fun k => if pyEndsWith k "_plural" then some (pyRsplitBase '_' k) else none)

/-- The plural collection loop: walk the candidate key list in order,
stopping at the first key missing from the dict (`break`); returns the
found keys (`items`) and their values (`sources`). -/
def collect_plurals (data : List (String × Json)) : List String → List String × List Json
  | [] => ([], [])
  | key :: rest =>
    if (keysOf data).contains key then
      let r := collect_plurals data rest
      (key :: r.1, (List.lookup key data).getD (Json.str "") :: r.2)
    else ([], [])

mutual

/-- `I18NextFile._extract_units`: dicts get the plural-aware walk of
`extract_units_dict`; lists and leaves take the generic walk (which
dispatches containers back into this extractor). -/
def extract_units (data : Json) (stop : Option (List String)) (prev : String)
    (name_node : PyName) (name_last_node : PyName) (last_node : Option Json) :
    List I18NextUnit :=
  match data with
  | .obj fs =>
    extract_units_dict fs (plurals_multiple fs) (plurals_simple fs) [] stop prev fs
  | .arr xs => extract_units_list xs 0 stop prev name_node (Json.arr xs)
  | .str s =>
    if stop.isNone
        || (isDictNode last_node && pyNameIn name_node (stop.getD []))
        || (isListNode last_node && pyNameIn name_last_node (stop.getD [])) then
      [{ id := prev, item := itemOfName name_node, target := .s s }]
    else
      []

/-- The dict loop of `I18NextFile._extract_units`, carrying the mutable
state (`plurals_multiple` as `pm`, `plurals_simple` as `ps`, the
`processed` set) through the iteration over the fields.  A key already
processed is skipped; a `_plural` pair or a `_0`-indexed group becomes
one multistring unit at `prev.base` whose keys are collected by
`collect_plurals`; any other key recurses ordinarily. -/
def extract_units_dict (fields : List (String × Json)) (pm ps processed : List String)
    (stop : Option (List String)) (prev : String) (data : List (String × Json)) :
    List I18NextUnit :=
  match fields with
  | [] => []
  | (k, v) :: rest =>
    if processed.contains k then
      extract_units_dict rest pm ps processed stop prev data
    else if ps.contains k || ps.contains (k ++ "_plural") then
      let plural_base := if pyEndsWith k "_plural" then pyDropRight k 7 else k
      let r := collect_plurals data [k, k ++ "_plural"]
      { id := prev ++ "." ++ plural_base, item := .list r.1,
          target := .ms (r.2.map Json.asString) }
        :: extract_units_dict rest pm (ps.erase plural_base) (processed ++ r.1)
            stop prev data
    else if k.toList.contains '_' then
      let plural_base := pyRsplitBase '_' k
      let digit := pyRsplitTail '_' k
      if pm.contains plural_base && pyIsDigit digit then
        let r := collect_plurals data
          ((List.range 10).map (fun o => plural_base ++ "_" ++ toString o))
        { id := prev ++ "." ++ plural_base, item := .list r.1,
            target := .ms (r.2.map Json.asString) }
          :: extract_units_dict rest (pm.erase plural_base) ps (processed ++ r.1)
              stop prev data
      else
        extract_units v stop (prev ++ "." ++ k) (.str k) .none (some (Json.obj data))
          ++ extract_units_dict rest pm ps processed stop prev data
    else
      extract_units v stop (prev ++ "." ++ k) (.str k) .none (some (Json.obj data))
        ++ extract_units_dict rest pm ps processed stop prev data

/-- The generic list walk (inherited from `JsonFile`), dispatching the
elements back into the i18next extractor. -/
def extract_units_list (xs : List Json) (i : Nat) (stop : Option (List String))
    (prev : String) (name_node : PyName) (data : Json) : List I18NextUnit :=
  match xs with
  | [] => []
  | x :: rest =>
    extract_units x stop (prev ++ "[" ++ toString i ++ "]") (.int i) name_node
        (some data)
      ++ extract_units_list rest (i + 1) stop prev name_node data

end

/-- Top-level i18next extraction. -/
def extract (t : Json) (filter : Option (List String)) : List I18NextUnit :=
  extract_units t filter "" .none .none none

end I18NextFile

/-- CLDR plural categories in their fixed order.  Modelled from the spec:
`translate.lang.data.cldr_plural_categories` lives outside this module
(a supplied lookup table). -/
def cldr_plural_categories : List String :=
  ["zero", "one", "two", "few", "many", "other"]

/-- Modelled from the spec: the locale-to-plural-categories table
`translate.lang.data.plural_tags` lives outside this module; the spec
fixes only the `en` entry `[one, other]`, which is also the default. -/
def plural_tags_table : List (String × List String) :=
  [("en", ["one", "other"])]

/-- A go-i18n unit: id, optional description and a possibly-plural
target. -/
structure GoI18NJsonUnit where
  id : String
  notes : String
  target : UVal
deriving DecidableEq, Repr

namespace GoI18NJsonFile

/-- `GoI18NJsonFile.plural_tags`: normalize the target language
(`replace('_', '-').split('-')[0]`, defaulting to `en` when none is
set) and look it up, falling back to the `en` entry. -/
def plural_tags (targetlanguage : Option String) : List String :=
  let locale := match targetlanguage with
    | some l =>
      String.mk ((splitOnChar '-'
        (l.toList.map (fun c => if c = '_' then '-' else c))).headD [])
    | none => "en"
  (plural_tags_table.lookup locale).getD ((plural_tags_table.lookup "en").getD [])

end GoI18NJsonFile

namespace GoI18NJsonUnit

/-- The translation value emitted by `GoI18NJsonUnit.getvalue`: a plain
string stays a string; a multistring is re-expanded against the store's
plural tags — padded with `""` when the unit holds fewer forms than the
tag list — and each tag is paired positionally with its form. -/
def translationValue (t : UVal) (store_plural_tags : List String) : Json :=
  match t with
  | .s v => Json.str v
  | .ms forms =>
    let strings := if store_plural_tags.length > forms.length
      then forms ++ List.replicate (store_plural_tags.length - forms.length) ""
      else forms
    Json.obj ((List.enum store_plural_tags).map
      (fun p => (p.2, Json.str (strings.getD p.1 ""))))

/-- `GoI18NJsonUnit.getvalue`: the record `{id, description?, translation}`
in that order, with `description` present only for a nonempty note. -/
def getvalue (u : GoI18NJsonUnit) (store_plural_tags : List String) :
    List (String × Json) :=
  [("id", Json.str u.id)]
    ++ (if u.notes ≠ "" then [("description", Json.str u.notes)] else [])
    ++ [("translation", translationValue u.target store_plural_tags)]

end GoI18NJsonUnit

/-- An ARB unit: id, value, note, placeholders and the `@`-metadata
object attached to it (the whole `@@`-header for the `"@"` unit). -/
structure ARBJsonUnit where
  id : String
  target : Option Json
  notes : String
  placeholders : Option Json
  metadata : List (String × Json)
deriving Repr

/-- Python dict assignment `d[k] = v` on an ordered dict: replace in
place when the key exists, else append at the end. -/
def dictSet (d : List (String × Json)) (k : String) (v : Json) :
    List (String × Json) :=
  if (keysOf d).contains k
  then d.map (fun kv => if kv.1 = k then (kv.1, v) else kv)
  else d ++ [(k, v)]

namespace ARBJsonUnit

/-- `ARBJsonUnit.getvalue`: merge a nonempty note into
`metadata['description']`; the reserved `"@"` header unit emits its
metadata object directly, every other unit emits
`{id: value, @id: metadata}`. -/
def getvalue (u : ARBJsonUnit) : Json :=
  let metadata := if u.notes ≠ ""
    then dictSet u.metadata "description" (Json.str u.notes)
    else u.metadata
  if u.id = "@" then Json.obj metadata
  else Json.obj [(u.id, u.target.getD (Json.str "")), ("@" ++ u.id, Json.obj metadata)]

/-- `ARBJsonUnit.isheader`. -/
def isheader (u : ARBJsonUnit) : Bool := u.id = "@"

end ARBJsonUnit

namespace ARBJsonFile

/-- The second phase of `ARBJsonFile._extract_units`: one unit per
non-`@`-prefixed key, carrying the value plus the `@key` metadata object
when present (note from its `description`, placeholders from its
`placeholders`, both defaulting to empty). -/
def data_units (all : List (String × Json)) : List (String × Json) → List ARBJsonUnit
  | [] => []
  | (item, value) :: rest =>
    if pyStartsWith item "@" then data_units all rest
    else
      let metadata := match List.lookup ("@" ++ item) all with
        | some (Json.obj m) => m
        | _ => []
      { id := item, target := some value,
          notes := match List.lookup "description" metadata with
            | some (Json.str s) => s
            | _ => ""
          , placeholders := List.lookup "placeholders" metadata
          , metadata := metadata }
        :: data_units all rest

/-- `ARBJsonFile._extract_units`: first all `@@`-prefixed keys become one
synthetic header unit with reserved id `"@"` (only when at least one
exists), then one unit per data key. -/
def extract_units (data : List (String × Json)) : List ARBJsonUnit :=
  let metadata := data.filter (fun kv => pyStartsWith kv.1 "@@")
  (if metadata.isEmpty then []
   else [{ id := "@", target := none, notes := "", placeholders := none,
           metadata := metadata }])
    ++ data_units data data

end ARBJsonFile

/-- The `ParseError` raised by `JsonFile.parse`, wrapping the message of
the underlying `ValueError`. -/
structure ParseError where
  wrapped : String
deriving DecidableEq, Repr

namespace JsonFile

/-- `JsonFile.parse` at the boundary where the external `json.loads` has
already run: a rejected input (a `ValueError`) is surfaced as exactly one
`ParseError` wrapping it and no units are extracted or added; an accepted
tree is extracted with the store's filter into the unit list. -/
def parse (loaded : Except String Json) (filter : Option (List String)) :
    Except ParseError (List JsonUnit) :=
  match loaded with
  | .error e => .error ⟨e⟩
  | .ok tree => .ok (extract tree filter)

end JsonFile

/-! ### String-level lemmas -/

theorem splitOnChar_ne_nil (sep : Char) (l : List Char) : splitOnChar sep l ≠ [] := by
  induction l with
  | nil => simp [splitOnChar]
  | cons c cs ih =>
    simp only [splitOnChar]
    rcases h : splitOnChar sep cs with _ | ⟨h1, t⟩
    · simp
    · by_cases hc : c = sep <;> simp [hc]

theorem splitOnChar_no_sep (sep : Char) (cs : List Char) (h : sep ∉ cs) :
    splitOnChar sep cs = [cs] := by
  induction cs with
  | nil => rfl
  | cons c l ih =>
    have hcs : c ≠ sep := fun hc => h (hc ▸ List.mem_cons_self c l)
    have hl : sep ∉ l := fun hm => h (List.mem_cons_of_mem c hm)
    simp only [splitOnChar, ih hl, if_neg hcs]

theorem splitOnChar_append (sep : Char) (cs l : List Char) (h : sep ∉ cs) :
    splitOnChar sep (cs ++ sep :: l) = cs :: splitOnChar sep l := by
  induction cs with
  | nil =>
    simp only [List.nil_append, splitOnChar]
    rcases hs : splitOnChar sep l with _ | ⟨h1, t⟩
    · exact absurd hs (splitOnChar_ne_nil sep l)
    · simp
  | cons c cs' ih =>
    have hcs : c ≠ sep := fun hc => h (hc ▸ List.mem_cons_self c cs')
    have hl : sep ∉ cs' := fun hm => h (List.mem_cons_of_mem c hm)
    rw [List.cons_append]
    simp only [splitOnChar]
    rw [ih hl]
    simp [if_neg hcs]

theorem toList_string_append (s t : String) : (s ++ t).toList = s.toList ++ t.toList :=
  String.data_append s t

theorem mk_toList (s : String) : String.mk s.toList = s := rfl

theorem renderPath_toList (segs : List String) :
    (renderPath segs).toList = (segs.map (fun s => '.' :: s.toList)).flatten := by
  suffices h : ∀ (p : String),
      (segs.foldl (fun p s => p ++ "." ++ s) p).toList
        = p.toList ++ (segs.map (fun s => '.' :: s.toList)).flatten by
    simpa using h ""
  induction segs with
  | nil => intro p; simp
  | cons s rest ih =>
    intro p
    simp only [List.foldl_cons, List.map_cons, List.flatten_cons, ih,
      toList_string_append]
    simp [toList_string_append]

theorem renderPath_append (segs : List String) (s : String) :
    renderPath (segs ++ [s]) = renderPath segs ++ "." ++ s := by
  unfold renderPath
  rw [List.foldl_append]
  rfl

theorem digitChar_ne_dot (m : Nat) : Nat.digitChar m ≠ '.' := by
  match m with
  | 0 | 1 | 2 | 3 | 4 | 5 | 6 | 7 | 8 | 9 | 10 | 11 | 12 | 13 | 14 | 15 => decide
  | n + 16 =>
    show Nat.digitChar (n + 16) ≠ '.'
    unfold Nat.digitChar
    repeat rw [if_neg (by omega)]
    decide

theorem toDigitsCore_ne_dot (fuel : Nat) :
    ∀ (n : Nat) (ds : List Char), (∀ c ∈ ds, c ≠ '.') →
      ∀ c ∈ Nat.toDigitsCore 10 fuel n ds, c ≠ '.' := by
  induction fuel with
  | zero => intro n ds hds; simpa [Nat.toDigitsCore] using hds
  | succ fuel ih =>
    intro n ds hds c hc
    have hstep : Nat.toDigitsCore 10 (fuel + 1) n ds =
        (if n / 10 = 0 then (n % 10).digitChar :: ds
         else Nat.toDigitsCore 10 fuel (n / 10) ((n % 10).digitChar :: ds)) := by
      simp [Nat.toDigitsCore]
    rw [hstep] at hc
    have hcons : ∀ x ∈ (n % 10).digitChar :: ds, x ≠ '.' := by
      intro x hx
      rcases List.mem_cons.1 hx with h | h
      · exact h ▸ digitChar_ne_dot (n % 10)
      · exact hds x h
    by_cases h0 : n / 10 = 0
    · rw [if_pos h0] at hc; exact hcons c hc
    · rw [if_neg h0] at hc; exact ih (n / 10) _ hcons c hc

theorem natRepr_ne_dot (i : Nat) : '.' ∉ (toString i).toList := by
  intro hmem
  have : (toString i).toList = Nat.toDigitsCore 10 (i + 1) i [] := rfl
  rw [this] at hmem
  exact toDigitsCore_ne_dot (i + 1) i [] (by simp) '.' hmem rfl

theorem splitOnChar_parts (s : String) (rest : List String)
    (hs : '.' ∉ s.toList) (h : ∀ t ∈ rest, '.' ∉ t.toList) :
    splitOnChar '.' (s.toList ++ (rest.map (fun t => '.' :: t.toList)).flatten)
      = s.toList :: rest.map String.toList := by
  induction rest generalizing s with
  | nil => simpa using splitOnChar_no_sep '.' s.toList hs
  | cons t rs ih =>
    have ht : '.' ∉ t.toList := h t (List.mem_cons_self t rs)
    have hrs : ∀ x ∈ rs, '.' ∉ x.toList := fun x hx => h x (List.mem_cons_of_mem t hx)
    have : s.toList ++ ((t :: rs).map (fun u => '.' :: u.toList)).flatten
        = s.toList ++ '.' :: (t.toList ++ (rs.map (fun u => '.' :: u.toList)).flatten) := by
      simp
    rw [this, splitOnChar_append '.' s.toList _ hs, ih t ht hrs]
    simp

theorem mkOfToList_id : (fun t => String.mk (String.toList t)) = fun t : String => t :=
  funext fun _ => rfl

theorem getkey_render (segs : List String) (hne : segs ≠ [])
    (h : ∀ s ∈ segs, s.toList ≠ [] ∧ '.' ∉ s.toList) :
    (splitOnChar '.' ((renderPath segs).toList.dropWhile (fun c => c = '.'))).map String.mk
      = segs := by
  rcases segs with _ | ⟨s1, rest⟩
  · exact absurd rfl hne
  have h1 := h s1 (List.mem_cons_self s1 rest)
  have hrest : ∀ t ∈ rest, '.' ∉ t.toList := fun t ht => (h t (List.mem_cons_of_mem s1 ht)).2
  have hflat : (renderPath (s1 :: rest)).toList
      = '.' :: (s1.toList ++ (rest.map (fun t => '.' :: t.toList)).flatten) := by
    rw [renderPath_toList]; simp
  rw [hflat]
  have hdrop : (('.' :: (s1.toList ++ (rest.map (fun t => '.' :: t.toList)).flatten)).dropWhile
      (fun c => c = '.'))
      = s1.toList ++ (rest.map (fun t => '.' :: t.toList)).flatten := by
    rcases hcs : s1.toList with _ | ⟨c, cs⟩
    · exact absurd hcs h1.1
    have hc : c ≠ '.' := by
      intro hcdot
      exact h1.2 (by rw [hcs, hcdot]; exact List.mem_cons_self _ _)
    simp [List.dropWhile, hc]
  rw [hdrop, splitOnChar_parts s1 rest h1.2 hrest]
  simp only [List.map_cons, List.map_map, mk_toList]
  have hcomp : (String.mk ∘ String.toList) = id := funext fun _ => rfl
  rw [hcomp, List.map_id]

theorem wrapKey_plain (k : String) (x : Json) (h : '[' ∉ k.toList) :
    JsonNestedUnit.wrapKey k x = Json.obj [(k, x)] := by
  have hfalse : ¬ ((k.toList.contains '['
      && decide (k.toList.getLast? = some ']')) = true) := by
    intro hcond
    exact h (List.elem_iff.mp ((Bool.and_eq_true _ _ |>.mp hcond).1))
  unfold JsonNestedUnit.wrapKey
  rw [if_neg hfalse]

theorem toList_arrSeg (k : String) (i : Nat) :
    (k ++ "[" ++ toString i ++ "]").toList
      = k.toList ++ '[' :: ((toString i).toList ++ [']']) := by
  simp [toList_string_append]

theorem wrapKey_arrSeg (k : String) (i : Nat) (x : Json) (h : '[' ∉ k.toList) :
    JsonNestedUnit.wrapKey (k ++ "[" ++ toString i ++ "]") x
      = Json.obj [(k, Json.arr [x])] := by
  have htl := toList_arrSeg k i
  have hcontains : (k ++ "[" ++ toString i ++ "]").toList.contains '[' = true := by
    simp only [List.elem_iff, htl]
    exact List.mem_append_right _ (List.mem_cons_self _ _)
  have hlast : (k ++ "[" ++ toString i ++ "]").toList.getLast? = some ']' := by
    rw [htl]
    have : k.toList ++ '[' :: ((toString i).toList ++ [']'])
        = (k.toList ++ '[' :: (toString i).toList) ++ [']'] := by simp
    rw [this, List.getLast?_concat]
  have hsplit : splitOnChar '[' (k ++ "[" ++ toString i ++ "]").toList
      = k.toList :: splitOnChar '[' ((toString i).toList ++ [']']) := by
    rw [htl]
    exact splitOnChar_append '[' k.toList _ h
  unfold JsonNestedUnit.wrapKey
  rw [if_pos (by rw [hcontains, hlast]; simp), hsplit]
  simp

theorem spineVal_append (segs : List String) (s : String) (x : Json) :
    spineVal (segs ++ [s]) x = spineVal segs (JsonNestedUnit.wrapKey s x) := by
  simp [spineVal, List.foldr_append]

namespace JsonFile

theorem merge_nil (d : List (String × Json)) : merge d [] = d := by
  simp [merge]

theorem merge_cons (d : List (String × Json)) (k : String) (v : Json)
    (rest : List (String × Json)) :
    merge d ((k, v) :: rest) = merge (mergeKey d k v) rest := by
  simp [merge]

theorem merge_single (d : List (String × Json)) (k : String) (v : Json) :
    merge d [(k, v)] = mergeKey d k v := by
  rw [merge_cons, merge_nil]

theorem mergeKey_absent (d : List (String × Json)) (k : String) (v : Json)
    (h : k ∉ keysOf d) : mergeKey d k v = d ++ [(k, v)] := by
  induction d with
  | nil => simp [mergeKey]
  | cons p ds ih =>
    rcases p with ⟨k1, v1⟩
    have hk1 : k1 ≠ k := by
      intro hk
      exact h (by rw [← hk]; exact List.mem_cons_self _ _)
    have hds : k ∉ keysOf ds := fun hm => h (List.mem_cons_of_mem _ hm)
    simp [mergeKey, if_neg hk1, ih hds]

theorem mergeKey_snoc (d : List (String × Json)) (k : String) (w v : Json)
    (h : k ∉ keysOf d) : mergeKey (d ++ [(k, w)]) k v = d ++ [(k, mergeVals w v)] := by
  induction d with
  | nil => simp [mergeKey]
  | cons p ds ih =>
    rcases p with ⟨k1, v1⟩
    have hk1 : k1 ≠ k := by
      intro hk
      exact h (by rw [← hk]; exact List.mem_cons_self _ _)
    have hds : k ∉ keysOf ds := fun hm => h (List.mem_cons_of_mem _ hm)
    simp [mergeKey, if_neg hk1, ih hds]

end JsonFile

theorem keysOf_append (d1 d2 : List (String × Json)) :
    keysOf (d1 ++ d2) = keysOf d1 ++ keysOf d2 := by
  simp [keysOf]

theorem fold_arr (k : String) (xs : List Json) :
    ∀ (es : List Json) (acc : List (String × Json)), k ∉ keysOf acc →
      List.foldl JsonFile.merge (acc ++ [(k, Json.arr es)])
          (xs.map (fun e => [(k, Json.arr [e])]))
        = acc ++ [(k, Json.arr (es ++ xs))] := by
  induction xs with
  | nil => intro es acc _; simp
  | cons x xs' ih =>
    intro es acc hk
    have hstep : JsonFile.merge (acc ++ [(k, Json.arr es)]) [(k, Json.arr [x])]
        = acc ++ [(k, Json.arr (es ++ [x]))] := by
      rw [JsonFile.merge_single, JsonFile.mergeKey_snoc _ _ _ _ hk]
      simp [JsonFile.mergeVals]
    simp only [List.map_cons, List.foldl_cons, hstep]
    rw [ih (es ++ [x]) acc hk]
    simp

theorem fold_obj (k : String) (Fs : List (List (String × Json))) :
    ∀ (G : List (String × Json)) (acc : List (String × Json)), k ∉ keysOf acc →
      List.foldl JsonFile.merge (acc ++ [(k, Json.obj G)])
          (Fs.map (fun F => [(k, Json.obj F)]))
        = acc ++ [(k, Json.obj (List.foldl JsonFile.merge G Fs))] := by
  induction Fs with
  | nil => intro G acc _; simp
  | cons F Fs' ih =>
    intro G acc hk
    have hstep : JsonFile.merge (acc ++ [(k, Json.obj G)]) [(k, Json.obj F)]
        = acc ++ [(k, Json.obj (JsonFile.merge G F))] := by
      rw [JsonFile.merge_single, JsonFile.mergeKey_snoc _ _ _ _ hk]
      simp [JsonFile.mergeVals]
    simp only [List.map_cons, List.foldl_cons, hstep]
    rw [ih (JsonFile.merge G F) acc hk]

theorem fragsOfVal_singleton (k : String) (v : Json) (F : List (String × Json))
    (h : F ∈ fragsOfVal k v) : ∃ x, F = [(k, x)] := by
  cases v with
  | str s => simp [fragsOfVal] at h; exact ⟨Json.str s, h⟩
  | arr xs =>
    simp only [fragsOfVal, List.mem_map] at h
    rcases h with ⟨e, -, he⟩
    exact ⟨Json.arr [e], he.symm⟩
  | obj fs =>
    simp only [fragsOfVal, List.mem_map] at h
    rcases h with ⟨F', -, hF⟩
    exact ⟨Json.obj F', hF.symm⟩

theorem goodVal_arr (xs : List Json) :
    goodVal (Json.arr xs) = true ↔ xs ≠ [] ∧ goodElems xs = true := by
  simp only [goodVal, Bool.and_eq_true, Bool.not_eq_true']
  rw [List.isEmpty_eq_false]

theorem goodVal_obj (fs : List (String × Json)) :
    goodVal (Json.obj fs) = true ↔ fs ≠ [] ∧ goodFields fs = true := by
  simp only [goodVal, Bool.and_eq_true, Bool.not_eq_true']
  rw [List.isEmpty_eq_false]

theorem goodFields_cons (k : String) (v : Json) (rest : List (String × Json)) :
    goodFields ((k, v) :: rest) = true ↔
      goodKey k = true ∧ k ∉ keysOf rest ∧ goodVal v = true ∧ goodFields rest = true := by
  simp only [goodFields, Bool.and_eq_true, Bool.not_eq_true']
  constructor
  · rintro ⟨⟨⟨hk, hnd⟩, hv⟩, hrest⟩
    refine ⟨hk, ?_, hv, hrest⟩
    intro hmem
    rw [← Bool.not_eq_true] at hnd
    exact hnd (by rw [List.elem_iff]; exact hmem)
  · rintro ⟨hk, hnd, hv, hrest⟩
    refine ⟨⟨⟨hk, ?_⟩, hv⟩, hrest⟩
    rw [← Bool.not_eq_true]
    intro hc
    exact hnd (List.elem_iff.mp hc)

mutual

theorem fragsOfVal_ne_nil (k : String) (v : Json) (h : goodVal v = true) :
    fragsOfVal k v ≠ [] := by
  cases v with
  | str s => simp [fragsOfVal]
  | arr xs =>
    have hxs : xs ≠ [] := ((goodVal_arr xs).mp h).1
    simp [fragsOfVal, hxs]
  | obj fs =>
    rcases (goodVal_obj fs).mp h with ⟨hfs, h2⟩
    have := fragsOfFields_ne_nil fs h2 hfs
    simp [fragsOfVal, this]

theorem fragsOfFields_ne_nil (fs : List (String × Json)) (h : goodFields fs = true)
    (hne : fs ≠ []) : fragsOfFields fs ≠ [] := by
  match fs with
  | [] => exact absurd rfl hne
  | (k, v) :: rest =>
    have hv : goodVal v = true := ((goodFields_cons k v rest).mp h).2.2.1
    have := fragsOfVal_ne_nil k v hv
    simp only [fragsOfFields]
    intro hcontra
    exact this (List.append_eq_nil.mp hcontra).1

end

theorem fragsOfFields_singleton (fs : List (String × Json)) :
    ∀ F ∈ fragsOfFields fs, ∃ k0 x, F = [(k0, x)] := by
  induction fs with
  | nil => simp [fragsOfFields]
  | cons p rest ih =>
    rcases p with ⟨k, v⟩
    intro F hF
    simp only [fragsOfFields] at hF
    rcases List.mem_append.mp hF with h | h
    · rcases fragsOfVal_singleton k v F h with ⟨x, hx⟩
      exact ⟨k, x, hx⟩
    · exact ih F h

mutual

theorem fold_frags_val (k : String) (v : Json) (acc : List (String × Json))
    (hv : goodVal v = true) (hk : k ∉ keysOf acc) :
    List.foldl JsonFile.merge acc (fragsOfVal k v) = acc ++ [(k, v)] := by
  cases v with
  | str s =>
    simp only [fragsOfVal, List.foldl_cons, List.foldl_nil]
    rw [JsonFile.merge_single, JsonFile.mergeKey_absent _ _ _ hk]
  | arr xs =>
    rcases (goodVal_arr xs).mp hv with ⟨hne, -⟩
    rcases xs with _ | ⟨x, xs'⟩
    · exact absurd rfl hne
    simp only [fragsOfVal, List.map_cons, List.foldl_cons]
    have h1 : JsonFile.merge acc [(k, Json.arr [x])] = acc ++ [(k, Json.arr [x])] := by
      rw [JsonFile.merge_single, JsonFile.mergeKey_absent _ _ _ hk]
    rw [h1, fold_arr k xs' [x] acc hk]
    simp
  | obj fs =>
    rcases (goodVal_obj fs).mp hv with ⟨hne, hgf⟩
    have hfrags := fragsOfFields_ne_nil fs hgf hne
    rcases hFs : fragsOfFields fs with _ | ⟨F0, Ftail⟩
    · exact absurd hFs hfrags
    simp only [fragsOfVal, hFs, List.map_cons, List.foldl_cons]
    have h1 : JsonFile.merge acc [(k, Json.obj F0)] = acc ++ [(k, Json.obj F0)] := by
      rw [JsonFile.merge_single, JsonFile.mergeKey_absent _ _ _ hk]
    rw [h1, fold_obj k Ftail F0 acc hk]
    have hfold : List.foldl JsonFile.merge F0 Ftail = fs := by
      have hmain := fold_frags_fields fs [] hgf (by simp [keysOf])
      rw [hFs] at hmain
      simp only [List.foldl_cons] at hmain
      have hF0 : JsonFile.merge [] F0 = F0 := by
        rcases fragsOfFields_singleton fs F0
            (by rw [hFs]; exact List.mem_cons_self _ _) with ⟨k0, x0, hx⟩
        rw [hx, JsonFile.merge_single]
        simp [JsonFile.mergeKey]
      rw [hF0] at hmain
      simpa using hmain
    rw [hfold]

theorem fold_frags_fields (fs : List (String × Json)) (acc : List (String × Json))
    (hgf : goodFields fs = true) (hdisj : ∀ k ∈ keysOf fs, k ∉ keysOf acc) :
    List.foldl JsonFile.merge acc (fragsOfFields fs) = acc ++ fs := by
  match fs with
  | [] => simp [fragsOfFields]
  | (k, v) :: rest =>
    rcases (goodFields_cons k v rest).mp hgf with ⟨-, hnd, hv, hrest⟩
    have hKcons : keysOf ((k, v) :: rest) = k :: keysOf rest := rfl
    rw [hKcons] at hdisj
    simp only [fragsOfFields]
    rw [List.foldl_append]
    have hk : k ∉ keysOf acc := hdisj k (List.mem_cons_self _ _)
    rw [fold_frags_val k v acc hv hk]
    have hdisj' : ∀ k' ∈ keysOf rest, k' ∉ keysOf (acc ++ [(k, v)]) := by
      intro k' hk'
      rw [keysOf_append]
      intro hmem
      rcases List.mem_append.mp hmem with h | h
      · exact hdisj k' (List.mem_cons_of_mem _ hk') h
      · have : k' = k := by simpa [keysOf] using h
        exact hnd (this ▸ hk')
    rw [fold_frags_fields rest (acc ++ [(k, v)]) hrest hdisj']
    simp

end

theorem goodKey_spec (k : String) (h : goodKey k = true) :
    k.toList ≠ [] ∧ '.' ∉ k.toList ∧ '[' ∉ k.toList :=
  of_decide_eq_true h

theorem segs_cond (segs : List String) (k : String)
    (hsegs : ∀ s ∈ segs, goodKey s = true) (hk : goodKey k = true) :
    ∀ s ∈ segs ++ [k], s.toList ≠ [] ∧ '.' ∉ s.toList := by
  intro s hs
  rcases List.mem_append.mp hs with h | h
  · rcases goodKey_spec s (hsegs s h) with ⟨h1, h2, -⟩
    exact ⟨h1, h2⟩
  · have : s = k := by simpa using h
    rcases goodKey_spec k hk with ⟨h1, h2, -⟩
    exact ⟨this ▸ h1, this ▸ h2⟩

theorem arrSeg_cond (k : String) (i : Nat) (hk : goodKey k = true) :
    (k ++ "[" ++ toString i ++ "]").toList ≠ []
      ∧ '.' ∉ (k ++ "[" ++ toString i ++ "]").toList := by
  rcases goodKey_spec k hk with ⟨-, hdot, -⟩
  rw [toList_arrSeg]
  constructor
  · intro hcontra
    have := List.append_eq_nil.mp hcontra
    exact List.cons_ne_nil _ _ this.2
  · intro hmem
    rcases List.mem_append.mp hmem with h | h
    · exact hdot h
    · rcases List.mem_cons.mp h with h | h
      · exact absurd h.symm (by decide)
      · rcases List.mem_append.mp h with h | h
        · exact natRepr_ne_dot i h
        · exact absurd (List.mem_singleton.mp h) (by decide)

theorem extract_leaf_none (s : String) (prev : String) (nm nl : PyName)
    (last : Option Json) :
    JsonFile.extract_units (Json.str s) none prev nm nl last
      = [{ id := prev, item := nm, target := s }] := by
  simp [JsonFile.extract_units]

theorem getvalue_at (u : JsonUnit) (segs : List String)
    (hne : segs ≠ []) (hcond : ∀ s ∈ segs, s.toList ≠ [] ∧ '.' ∉ s.toList)
    (hid : u.id = renderPath segs) :
    JsonNestedUnit.getvalue u = segs.foldr JsonNestedUnit.wrapKey (Json.str u.target) := by
  unfold JsonNestedUnit.getvalue JsonNestedUnit.getkey
  rw [hid, getkey_render segs hne hcond]
  rfl

theorem frag_list (k : String) (xs : List Json) (segs : List String)
    (hxs : goodElems xs = true) (hk : goodKey k = true)
    (hsegs : ∀ s ∈ segs, goodKey s = true) :
    ∀ (i : Nat) (nm : PyName) (pr : Json),
      (JsonFile.extract_units_list xs i none (renderPath (segs ++ [k])) nm pr).map
          JsonNestedUnit.getvalue
        = xs.map (fun e => spineVal segs (Json.obj [(k, Json.arr [e])])) := by
  induction xs with
  | nil => intro i nm pr; simp [JsonFile.extract_units_list]
  | cons x rest ih =>
    cases x with
    | arr a => exact absurd hxs (by simp [goodElems])
    | obj o => exact absurd hxs (by simp [goodElems])
    | str s =>
      have hrest : goodElems rest = true := by simpa [goodElems] using hxs
      intro i nm pr
      have hid : renderPath (segs ++ [k]) ++ "[" ++ toString i ++ "]"
          = renderPath (segs ++ [k ++ "[" ++ toString i ++ "]"]) := by
        rw [renderPath_append, renderPath_append]
        simp [String.append_assoc]
      have hcond := segs_cond segs k hsegs hk
      have hcond' : ∀ t ∈ segs ++ [k ++ "[" ++ toString i ++ "]"],
          t.toList ≠ [] ∧ '.' ∉ t.toList := by
        intro t ht
        rcases List.mem_append.mp ht with h | h
        · rcases goodKey_spec t (hsegs t h) with ⟨h1, h2, -⟩
          exact ⟨h1, h2⟩
        · have heq : t = k ++ "[" ++ toString i ++ "]" := by simpa using h
          exact heq ▸ arrSeg_cond k i hk
      have hunit : JsonNestedUnit.getvalue
          { id := renderPath (segs ++ [k]) ++ "[" ++ toString i ++ "]",
            item := PyName.int i, target := s }
          = spineVal segs (Json.obj [(k, Json.arr [Json.str s])]) := by
        rw [getvalue_at _ (segs ++ [k ++ "[" ++ toString i ++ "]"])
            (by simp) hcond' hid]
        rw [List.foldr_append]
        simp only [List.foldr_cons, List.foldr_nil]
        rw [wrapKey_arrSeg k i (Json.str s) (goodKey_spec k hk).2.2]
        rfl
      simp only [JsonFile.extract_units_list, extract_leaf_none, List.map_cons,
        List.map_append, List.singleton_append, List.append_eq, List.nil_append,
        List.map]
      rw [hunit, ih hrest (i + 1) nm pr]

mutual

theorem frag_val (v : Json) (k : String) (segs : List String) (pr : Json)
    (hv : goodVal v = true) (hk : goodKey k = true)
    (hsegs : ∀ s ∈ segs, goodKey s = true) :
    (JsonFile.extract_units v none (renderPath (segs ++ [k])) (.str k) .none
        (some pr)).map JsonNestedUnit.getvalue
      = (fragsOfVal k v).map (fun F => spineVal segs (Json.obj F)) := by
  cases v with
  | str s =>
    rw [extract_leaf_none]
    have hunit : JsonNestedUnit.getvalue
        { id := renderPath (segs ++ [k]), item := PyName.str k, target := s }
        = spineVal segs (Json.obj [(k, Json.str s)]) := by
      rw [getvalue_at _ (segs ++ [k]) (by simp) (segs_cond segs k hsegs hk) rfl]
      rw [List.foldr_append]
      simp only [List.foldr_cons, List.foldr_nil]
      rw [wrapKey_plain k (Json.str s) (goodKey_spec k hk).2.2]
      rfl
    simp only [List.map_cons, List.map_nil, hunit, fragsOfVal]
  | arr xs =>
    rcases (goodVal_arr xs).mp hv with ⟨-, helems⟩
    have hlist := frag_list k xs segs helems hk hsegs 0 (PyName.str k) (Json.arr xs)
    simp only [JsonFile.extract_units]
    rw [hlist]
    simp [fragsOfVal, List.map_map]
  | obj fs =>
    rcases (goodVal_obj fs).mp hv with ⟨-, hgf⟩
    have hsegs' : ∀ s ∈ segs ++ [k], goodKey s = true := by
      intro s hs
      rcases List.mem_append.mp hs with h | h
      · exact hsegs s h
      · have : s = k := by simpa using h
        exact this ▸ hk
    have hin := frag_fields fs (segs ++ [k]) (Json.obj fs) hgf hsegs'
    simp only [JsonFile.extract_units]
    rw [hin]
    simp only [fragsOfVal, List.map_map]
    have hfun : ((fun F => spineVal segs (Json.obj F))
          ∘ (fun F : List (String × Json) => [(k, Json.obj F)]))
        = fun F : List (String × Json) => spineVal (segs ++ [k]) (Json.obj F) := by
      funext F
      show spineVal segs (Json.obj [(k, Json.obj F)]) = spineVal (segs ++ [k]) (Json.obj F)
      rw [spineVal_append, wrapKey_plain k (Json.obj F) (goodKey_spec k hk).2.2]
    rw [hfun]

theorem frag_fields (fs : List (String × Json)) (segs : List String) (pr : Json)
    (hfs : goodFields fs = true) (hsegs : ∀ s ∈ segs, goodKey s = true) :
    (JsonFile.extract_units_dict fs none (renderPath segs) pr).map
        JsonNestedUnit.getvalue
      = (fragsOfFields fs).map (fun F => spineVal segs (Json.obj F)) := by
  match fs with
  | [] => simp [JsonFile.extract_units_dict, fragsOfFields]
  | (k, v) :: rest =>
    rcases (goodFields_cons k v rest).mp hfs with ⟨hk, -, hv, hrest⟩
    have hprev : renderPath segs ++ "." ++ k = renderPath (segs ++ [k]) :=
      (renderPath_append segs k).symm
    simp only [JsonFile.extract_units_dict, fragsOfFields, List.map_append]
    rw [hprev, frag_val v k segs pr hv hk hsegs,
      frag_fields rest segs pr hrest hsegs]

end

/-- The tree a `JsonNestedFile` writes out for an unedited, unfiltered
parse of `{fields}`, computed through `extract` and `serialize`. -/
theorem nested_rebuild (fs : List (String × Json)) (h : goodFields fs = true) :
    JsonNestedFile.serialize (JsonFile.extract (Json.obj fs) none) = Json.obj fs := by
  unfold JsonNestedFile.serialize JsonFile.extract
  have hext : JsonFile.extract_units (Json.obj fs) none "" .none .none none
      = JsonFile.extract_units_dict fs none (renderPath []) (Json.obj fs) := by
    simp [JsonFile.extract_units, renderPath]
  rw [hext]
  have hfold : (JsonFile.extract_units_dict fs none (renderPath []) (Json.obj fs)).foldl
        (fun acc u => JsonFile.merge acc (JsonNestedUnit.getvalue u).objFields) []
      = List.foldl JsonFile.merge []
          (((JsonFile.extract_units_dict fs none (renderPath []) (Json.obj fs)).map
            JsonNestedUnit.getvalue).map Json.objFields) := by
    rw [List.map_map, List.foldl_map]
    rfl
  rw [hfold, frag_fields fs [] (Json.obj fs) h (by simp)]
  have hmaps : ((fragsOfFields fs).map (fun F => spineVal [] (Json.obj F))).map
        Json.objFields = fragsOfFields fs := by
    rw [List.map_map]
    have : (Json.objFields ∘ fun F => spineVal [] (Json.obj F))
        = fun F : List (String × Json) => F := by
      funext F
      rfl
    rw [this, List.map_id']
  rw [hmaps, fold_frags_fields fs [] h (by simp [keysOf])]
  rfl

/-! ### Helper lemmas for the dialect claims -/

theorem mergeKey_found (l1 l2 : List (String × Json)) (k : String) (v w : Json)
    (h : k ∉ keysOf l1) :
    JsonFile.mergeKey (l1 ++ (k, v) :: l2) k w = l1 ++ (k, JsonFile.mergeVals v w) :: l2 := by
  induction l1 with
  | nil => simp [JsonFile.mergeKey]
  | cons p ds ih =>
    rcases p with ⟨k1, v1⟩
    have hk1 : k1 ≠ k := by
      intro hk
      exact h (by rw [← hk]; exact List.mem_cons_self _ _)
    have hds : k ∉ keysOf ds := fun hm => h (List.mem_cons_of_mem _ hm)
    simp [JsonFile.mergeKey, if_neg hk1, ih hds]

theorem zip_take_len {α β : Type} (l : List α) :
    ∀ (xs : List β), l.zip (xs.take l.length) = l.zip xs := by
  induction l with
  | nil => intro xs; simp
  | cons a l' ih =>
    intro xs
    cases xs with
    | nil => simp
    | cons x xs' => simp [ih xs']

theorem enumFrom_map_getD {β γ : Type} (f : β → γ) (d : β) (tags : List String) :
    ∀ (n : Nat) (vals : List β), tags.length ≤ (vals.drop n).length →
      (List.enumFrom n tags).map (fun p => (p.2, f (vals.getD p.1 d)))
        = tags.zip ((vals.drop n).map f) := by
  induction tags with
  | nil => intro n vals _; simp
  | cons t ts ih =>
    intro n vals hlen
    have hn : n < vals.length := by
      by_contra hcon
      push_neg at hcon
      rw [List.drop_eq_nil_of_le hcon] at hlen
      simp at hlen
    have hdrop : vals.drop n = vals[n] :: vals.drop (n + 1) :=
      List.drop_eq_getElem_cons hn
    have hget : vals.getD n d = vals[n] := List.getD_eq_getElem vals d hn
    have hlen' : ts.length ≤ (vals.drop (n + 1)).length := by
      rw [hdrop] at hlen
      simp only [List.length_cons] at hlen
      rw [List.length_drop] at hlen ⊢
      omega
    simp only [List.enumFrom, List.map_cons, hget, hdrop, List.map, List.zip_cons_cons]
    rw [ih (n + 1) vals hlen']

theorem enum_map_getD {β γ : Type} (f : β → γ) (d : β) (tags : List String)
    (vals : List β) (hlen : tags.length ≤ vals.length) :
    (List.enum tags).map (fun p => (p.2, f (vals.getD p.1 d)))
      = tags.zip (vals.map f) := by
  have := enumFrom_map_getD f d tags 0 vals (by simpa using hlen)
  simpa using this

theorem collect_plurals_takeWhile (data : List (String × Json)) :
    ∀ (plurals : List String),
      I18NextFile.collect_plurals data plurals
        = (plurals.takeWhile (fun key => (keysOf data).contains key),
           (plurals.takeWhile (fun key => (keysOf data).contains key)).map
             (fun key => (List.lookup key data).getD (Json.str ""))) := by
  intro plurals
  induction plurals with
  | nil => simp [I18NextFile.collect_plurals]
  | cons key rest ih =>
    by_cases hk : key ∈ keysOf data
    · simp [I18NextFile.collect_plurals, List.takeWhile_cons, hk, ih]
    · simp [I18NextFile.collect_plurals, List.takeWhile_cons, hk, ih]

theorem data_units_no_at (all : List (String × Json)) :
    ∀ (rest : List (String × Json)) (u : ARBJsonUnit),
      u ∈ ARBJsonFile.data_units all rest → pyStartsWith u.id "@" = false := by
  intro rest
  induction rest with
  | nil => intro u hu; simp [ARBJsonFile.data_units] at hu
  | cons p rs ih =>
    rcases p with ⟨item, value⟩
    intro u hu
    by_cases hat : pyStartsWith item "@" = true
    · rw [ARBJsonFile.data_units, if_pos hat] at hu
      exact ih u hu
    · rw [ARBJsonFile.data_units, if_neg hat] at hu
      rcases List.mem_cons.mp hu with h | h
      · rw [h]
        simpa using hat
      · exact ih u h

/-! ### Claim theorems -/

/-- C1 counterexample: the round trip `rebuild(extract(T)) == T` fails on
the well-formed tree `{"a": {}}` — the empty nested object yields no
units, so the rebuilt tree is `{}`. -/
theorem C1_roundtrip_counterexample :
    JsonNestedFile.serialize (JsonFile.extract (Json.obj [("a", Json.obj [])]) none)
      ≠ Json.obj [("a", Json.obj [])] := by
  have hval : JsonNestedFile.serialize
      (JsonFile.extract (Json.obj [("a", Json.obj [])]) none) = Json.obj [] := rfl
  rw [hval]
  simp

/-- C1 (amended): for the plain nested dialect, extracting with no filter
and serializing the unedited document rebuilds the input tree exactly —
key order and array order included — for every tree whose object keys are
nonempty, free of `.` and `[`, and unique per object, whose containers
are nonempty, and whose array elements are scalar leaves. -/
theorem C1_nested_roundtrip (fs : List (String × Json)) (h : goodFields fs = true) :
    JsonNestedFile.serialize (JsonFile.extract (Json.obj fs) none) = Json.obj fs :=
  nested_rebuild fs h

/-- Witness for C1: the round trip computed on the spec's worked example
`{"a": {"b": "x", "c": ["y", "z"]}}`. -/
theorem C1_nested_roundtrip_witness :
    goodFields [("a", Json.obj [("b", Json.str "x"),
        ("c", Json.arr [Json.str "y", Json.str "z"])])] = true
    ∧ JsonNestedFile.serialize (JsonFile.extract
        (Json.obj [("a", Json.obj [("b", Json.str "x"),
          ("c", Json.arr [Json.str "y", Json.str "z"])])]) none)
      = Json.obj [("a", Json.obj [("b", Json.str "x"),
          ("c", Json.arr [Json.str "y", Json.str "z"])])] :=
  ⟨by decide, C1_nested_roundtrip _ (by decide)⟩

/-- C2: the deep merge used by `serialize` merges objects recursively,
concatenates arrays left-before-right, overwrites with the later value in
every other collision, appends fresh keys, and therefore accumulates
repeated array-index fragments under one key into a single array. -/
theorem C2_deep_merge_semantics :
    (∀ o1 o2 : List (String × Json),
        JsonFile.mergeVals (Json.obj o1) (Json.obj o2) = Json.obj (JsonFile.merge o1 o2))
    ∧ (∀ a1 a2 : List Json,
        JsonFile.mergeVals (Json.arr a1) (Json.arr a2) = Json.arr (a1 ++ a2))
    ∧ (∀ v w : Json,
        (∀ o1 o2, ¬(v = Json.obj o1 ∧ w = Json.obj o2)) →
        (∀ a1 a2, ¬(v = Json.arr a1 ∧ w = Json.arr a2)) →
        JsonFile.mergeVals v w = w)
    ∧ (∀ (l1 l2 : List (String × Json)) (k : String) (v w : Json), k ∉ keysOf l1 →
        JsonFile.merge (l1 ++ (k, v) :: l2) [(k, w)]
          = l1 ++ (k, JsonFile.mergeVals v w) :: l2)
    ∧ (∀ (d : List (String × Json)) (k : String) (w : Json), k ∉ keysOf d →
        JsonFile.merge d [(k, w)] = d ++ [(k, w)])
    ∧ List.foldl JsonFile.merge []
        [[("a", Json.arr [Json.str "x"])], [("a", Json.arr [Json.str "y"])]]
        = [("a", Json.arr [Json.str "x", Json.str "y"])] := by
  refine ⟨?_, ?_, ?_, ?_, ?_, ?_⟩
  · intro o1 o2; simp [JsonFile.mergeVals]
  · intro a1 a2; simp [JsonFile.mergeVals]
  · intro v w hobj harr
    cases v <;> cases w
    all_goals try (exact absurd ⟨rfl, rfl⟩ (hobj _ _))
    all_goals try (exact absurd ⟨rfl, rfl⟩ (harr _ _))
    all_goals simp [JsonFile.mergeVals]
  · intro l1 l2 k v w h
    rw [JsonFile.merge_single, mergeKey_found l1 l2 k v w h]
  · intro d k w h
    rw [JsonFile.merge_single, JsonFile.mergeKey_absent d k w h]
  · simp [JsonFile.merge, JsonFile.mergeKey, JsonFile.mergeVals]

/-- Witness for C2: the overwrite and array-concatenation clauses applied
at concrete inputs. -/
theorem C2_deep_merge_semantics_witness :
    ((∀ o1 o2, ¬(Json.str "s" = Json.obj o1 ∧ Json.str "t" = Json.obj o2))
      ∧ (∀ a1 a2, ¬(Json.str "s" = Json.arr a1 ∧ Json.str "t" = Json.arr a2))
      ∧ "a" ∉ keysOf [("b", Json.str "q")])
    ∧ JsonFile.mergeVals (Json.str "s") (Json.str "t") = Json.str "t"
    ∧ JsonFile.merge ([("b", Json.str "q")] ++ ("a", Json.arr [Json.str "x"]) :: [])
        [("a", Json.arr [Json.str "y"])]
      = [("b", Json.str "q")]
          ++ ("a", JsonFile.mergeVals (Json.arr [Json.str "x"]) (Json.arr [Json.str "y"]))
            :: [] := by
  refine ⟨⟨fun o1 o2 h => Json.noConfusion h.1,
           fun a1 a2 h => Json.noConfusion h.1, by decide⟩, ?_, ?_⟩
  · exact C2_deep_merge_semantics.2.2.1 (Json.str "s") (Json.str "t")
      (fun o1 o2 h => Json.noConfusion h.1) (fun a1 a2 h => Json.noConfusion h.1)
  · exact C2_deep_merge_semantics.2.2.2.1 [("b", Json.str "q")] [] "a"
      (Json.arr [Json.str "x"]) (Json.arr [Json.str "y"]) (by decide)

/-- C3: under a filter, a leaf is emitted exactly when the filter is
absent, or the immediate container is an object and the leaf's own key is
in the filter, or it is an array and the array's inherited parent-object
key is in the filter; concretely, `{"a": {"b": "x", "c": ["y","z"]}}`
with filter `{"b"}` yields only `.a.b`, and with filter `{"c"}` yields
exactly `.a.c[0]` and `.a.c[1]`. -/
theorem C3_filter_semantics :
    (JsonFile.extract
        (Json.obj [("a", Json.obj [("b", Json.str "x"),
          ("c", Json.arr [Json.str "y", Json.str "z"])])]) (some ["b"])
      = [{ id := ".a.b", item := PyName.str "b", target := "x" }])
    ∧ (JsonFile.extract
        (Json.obj [("a", Json.obj [("b", Json.str "x"),
          ("c", Json.arr [Json.str "y", Json.str "z"])])]) (some ["c"])
      = [{ id := ".a.c[0]", item := PyName.int 0, target := "y" },
         { id := ".a.c[1]", item := PyName.int 1, target := "z" }])
    ∧ (∀ (s prev : String) (nm nl : PyName) (last : Option Json),
        JsonFile.extract_units (Json.str s) none prev nm nl last
          = [{ id := prev, item := nm, target := s }])
    ∧ (∀ (s prev : String) (nm nl : PyName) (last : Option Json)
          (stopl : List String),
        JsonFile.extract_units (Json.str s) (some stopl) prev nm nl last ≠ []
          ↔ ((isDictNode last = true ∧ pyNameIn nm stopl = true)
              ∨ (isListNode last = true ∧ pyNameIn nl stopl = true))) := by
  refine ⟨by decide, by decide, extract_leaf_none, ?_⟩
  intro s prev nm nl last stopl
  rw [JsonFile.extract_units]
  simp only [Option.isNone_some, Bool.false_or, Option.getD_some]
  by_cases hc : (isDictNode last && pyNameIn nm stopl
      || isListNode last && pyNameIn nl stopl) = true
  · rw [if_pos hc]
    simp only [Bool.or_eq_true, Bool.and_eq_true] at hc
    simp [hc]
  · rw [if_neg hc]
    simp only [Bool.or_eq_true, Bool.and_eq_true] at hc
    push_neg at hc
    simp only [ne_eq, not_true_eq_false]
    constructor
    · intro hfalse
      exact hfalse.elim
    · rintro (⟨h1, h2⟩ | ⟨h1, h2⟩)
      · exact absurd h2 (hc.1 h1)
      · exact absurd h2 (hc.2 h1)

/-- C8: plain nested extraction of `{"a": {"b": "x", "c": ["y","z"]}}`
with no filter yields exactly three units in depth-first order with
identifiers `.a.b`, `.a.c[0]`, `.a.c[1]` — object keys prefixed by `.`,
array indices rendered `[i]` with no separator. -/
theorem C8_plain_nested_identifiers :
    JsonFile.extract
        (Json.obj [("a", Json.obj [("b", Json.str "x"),
          ("c", Json.arr [Json.str "y", Json.str "z"])])]) none
      = [{ id := ".a.b", item := PyName.str "b", target := "x" },
         { id := ".a.c[0]", item := PyName.int 0, target := "y" },
         { id := ".a.c[1]", item := PyName.int 1, target := "z" }] := rfl

/-- C9: an input rejected by the underlying JSON parser makes `parse`
surface exactly one `ParseError` wrapping the underlying failure, and no
units are produced (the error result carries no unit list). -/
theorem C9_parse_failure (e : String) (filter : Option (List String)) :
    JsonFile.parse (Except.error e) filter = Except.error ⟨e⟩ := rfl

/-- C4 counterexample: the regeneration does not use the group's base
name when the first key merely contains `_0` as a substring — for the
`_plural` group `a_0b`/`a_0b_plural`, assigning a 3-form value yields
keys `a__0, a__1, a__2` (from `'_0' in item[0]` then `item[0][:-2]`), not
`a_0b_0, a_0b_1, a_0b_2`. -/
theorem C4_regen_counterexample :
    I18NextUnit.set_target
        { id := ".a_0b", item := ItemVal.list ["a_0b", "a_0b_plural"],
          target := UVal.ms ["x", "y"] } (UVal.ms ["1", "2", "3"])
      = some { id := ".a_0b", item := ItemVal.list ["a__0", "a__1", "a__2"],
               target := UVal.ms ["1", "2", "3"] }
    ∧ ItemVal.list ["a__0", "a__1", "a__2"]
        ≠ ItemVal.list ["a_0b_0", "a_0b_1", "a_0b_2"] := by decide

/-- C4 (amended): extracting `{"key_0": "one", "key_1": "many"}` yields
one unit with a 2-form multistring and local keys `[key_0, key_1]`; for
every plural unit, assigning a multistring whose form count differs from
the current key count regenerates the keys via `get_plurals` from
`get_base` of the current keys (the base name whenever the first key ends
in `_0`, or contains no `_0` at all): counts at most 2 give
`[base, base_plural]` truncated, larger counts give `base_0, ...`; in
particular the 3-form assignment yields keys `key_0, key_1, key_2`, which
is what serialization then emits. -/
theorem C4_i18next_plural_grouping :
    (I18NextFile.extract
        (Json.obj [("key_0", Json.str "one"), ("key_1", Json.str "many")]) none
      = [{ id := ".key", item := ItemVal.list ["key_0", "key_1"],
           target := UVal.ms ["one", "many"] }])
    ∧ (∀ (u : I18NextUnit) (keys forms : List String),
        u.item = ItemVal.list keys → forms.length ≠ keys.length →
          I18NextUnit.set_target u (UVal.ms forms)
            = some { u with
                item := ItemVal.list
                  (I18NextUnit.get_plurals forms.length (I18NextUnit.get_base keys)),
                target := UVal.ms forms })
    ∧ (∀ (base : String) (count : Nat),
        (count ≤ 2 →
          I18NextUnit.get_plurals count base = [base, base ++ "_plural"].take count)
        ∧ (2 < count →
          I18NextUnit.get_plurals count base
            = (List.range count).map (fun i => base ++ "_" ++ toString i)))
    ∧ (I18NextUnit.set_target
          { id := ".key", item := ItemVal.list ["key_0", "key_1"],
            target := UVal.ms ["one", "many"] } (UVal.ms ["1", "2", "3"])
        = some { id := ".key", item := ItemVal.list ["key_0", "key_1", "key_2"],
                 target := UVal.ms ["1", "2", "3"] })
    ∧ (I18NextUnit.getvalue
          { id := ".key", item := ItemVal.list ["key_0", "key_1", "key_2"],
            target := UVal.ms ["1", "2", "3"] }
        = Json.obj [("key_0", Json.str "1"), ("key_1", Json.str "2"),
            ("key_2", Json.str "3")]) := by
  refine ⟨by decide, ?_, ?_, by decide, rfl⟩
  · intro u keys forms hitem hne
    obtain ⟨uid, uitem, utar⟩ := u
    simp only at hitem
    subst hitem
    simp [I18NextUnit.set_target, hne]
  · intro base count
    constructor
    · intro h
      unfold I18NextUnit.get_plurals
      rw [if_pos h]
    · intro h
      unfold I18NextUnit.get_plurals
      rw [if_neg (by omega)]

/-- Witness for C4: the key-regeneration clause applied to a concrete
2-key plural unit receiving a 3-form value. -/
theorem C4_i18next_plural_grouping_witness :
    (({ id := ".k", item := ItemVal.list ["k_0", "k_1"],
        target := UVal.ms ["o", "m"] } : I18NextUnit).item
      = ItemVal.list ["k_0", "k_1"])
    ∧ ((["1", "2", "3"] : List String).length ≠ (["k_0", "k_1"] : List String).length)
    ∧ (I18NextUnit.set_target
        { id := ".k", item := ItemVal.list ["k_0", "k_1"],
          target := UVal.ms ["o", "m"] } (UVal.ms ["1", "2", "3"])
      = some { id := ".k",
               item := ItemVal.list
                 (I18NextUnit.get_plurals (["1", "2", "3"] : List String).length
                   (I18NextUnit.get_base ["k_0", "k_1"])),
               target := UVal.ms ["1", "2", "3"] }) :=
  ⟨rfl, by decide,
    C4_i18next_plural_grouping.2.1 _ ["k_0", "k_1"] ["1", "2", "3"] rfl (by decide)⟩

/-- C5 counterexample: on `{"base_0": "a", "base_2": "c"}` the extractor
does not reconstruct the group from all present indexed keys — the claim
would make one unit with forms `["a", "c"]` and keys
`[base_0, base_2]`, which is not what extraction returns. -/
theorem C5_gap_counterexample :
    I18NextFile.extract
        (Json.obj [("base_0", Json.str "a"), ("base_2", Json.str "c")]) none
      ≠ [{ id := ".base", item := ItemVal.list ["base_0", "base_2"],
           target := UVal.ms ["a", "c"] }] := by decide

/-- C5 (amended): a `_0`-group with missing intermediate indices is not
an error, but the collection loop keeps only the consecutive run of
present keys from `base_0` up to the first gap (`collect_plurals` is the
`takeWhile` of membership over the candidate keys); indexed keys past the
gap are extracted as ordinary units.  On
`{"base_0": "a", "base_2": "c"}` this gives a plural unit with forms
`["a"]` and keys `["base_0"]`, plus an ordinary unit for `base_2`. -/
theorem C5_gap_truncation :
    (∀ (data : List (String × Json)) (plurals : List String),
        I18NextFile.collect_plurals data plurals
          = (plurals.takeWhile (fun key => (keysOf data).contains key),
             (plurals.takeWhile (fun key => (keysOf data).contains key)).map
               (fun key => (List.lookup key data).getD (Json.str ""))))
    ∧ (I18NextFile.extract
        (Json.obj [("base_0", Json.str "a"), ("base_2", Json.str "c")]) none
      = [{ id := ".base", item := ItemVal.list ["base_0"], target := UVal.ms ["a"] },
         { id := ".base_2", item := ItemVal.str "base_2", target := UVal.s "c" }]) :=
  ⟨fun data => collect_plurals_takeWhile data, by decide⟩

/-- C6 counterexample: the synthetic ARB header unit keeps the
`@@`-prefixed keys verbatim — its serialized value on the claim's input
is `{"@@locale": "en"}`, not `{"locale": "en"}`. -/
theorem C6_header_counterexample :
    (ARBJsonFile.extract_units
        [("@@locale", Json.str "en"), ("greeting", Json.str "Hi"),
         ("@greeting", Json.obj [("description", Json.str "salutes")])]).map
      ARBJsonUnit.getvalue
      = [Json.obj [("@@locale", Json.str "en")],
         Json.obj [("greeting", Json.str "Hi"),
           ("@greeting", Json.obj [("description", Json.str "salutes")])]]
    ∧ Json.obj [("@@locale", Json.str "en")] ≠ Json.obj [("locale", Json.str "en")] := by
  refine ⟨rfl, ?_⟩
  intro h
  have h1 := congrArg Json.objFields h
  simp only [Json.objFields] at h1
  have h2 := congrArg (fun l => (l.headD ("", Json.str "")).1) h1
  simp at h2

/-- C6 (amended): extracting the ARB input
`{"@@locale": "en", "greeting": "Hi", "@greeting": {"description": "salutes"}}`
yields exactly a header unit with identifier `"@"` whose value is
`{"@@locale": "en"}` (keys verbatim, `@@` prefix kept), plus a data unit
`greeting` with note `"salutes"`; a header unit is emitted exactly when at
least one `@@`-prefixed key exists. -/
theorem C6_arb_metadata :
    (ARBJsonFile.extract_units
        [("@@locale", Json.str "en"), ("greeting", Json.str "Hi"),
         ("@greeting", Json.obj [("description", Json.str "salutes")])]
      = [{ id := "@", target := none, notes := "", placeholders := none,
           metadata := [("@@locale", Json.str "en")] },
         { id := "greeting", target := some (Json.str "Hi"), notes := "salutes",
           placeholders := none,
           metadata := [("description", Json.str "salutes")] }])
    ∧ (∀ (data : List (String × Json)),
        (data.filter (fun kv => pyStartsWith kv.1 "@@")).isEmpty = true →
          ∀ u ∈ ARBJsonFile.extract_units data, u.id ≠ "@")
    ∧ (∀ (data : List (String × Json)),
        (data.filter (fun kv => pyStartsWith kv.1 "@@")).isEmpty = false →
          (ARBJsonFile.extract_units data).head?
            = some { id := "@", target := none, notes := "", placeholders := none,
                     metadata := data.filter (fun kv => pyStartsWith kv.1 "@@") }) := by
  refine ⟨rfl, ?_, ?_⟩
  · intro data hempty u hu
    simp only [ARBJsonFile.extract_units, hempty, if_true, List.nil_append] at hu
    have hfalse := data_units_no_at data data u hu
    intro hid
    rw [hid] at hfalse
    exact absurd hfalse (by decide)
  · intro data hne
    simp [ARBJsonFile.extract_units, hne]

/-- Witness for C6: the header-emission clauses applied at concrete
inputs with and without `@@`-prefixed keys. -/
theorem C6_arb_metadata_witness :
    (([("x", Json.str "y")].filter (fun kv => pyStartsWith kv.1 "@@")).isEmpty = true)
    ∧ (∀ u ∈ ARBJsonFile.extract_units [("x", Json.str "y")], u.id ≠ "@")
    ∧ (([("@@a", Json.str "b")].filter
        (fun kv => pyStartsWith kv.1 "@@")).isEmpty = false)
    ∧ ((ARBJsonFile.extract_units [("@@a", Json.str "b")]).head?
        = some { id := "@", target := none, notes := "", placeholders := none,
                 metadata := [("@@a", Json.str "b")] }) :=
  ⟨by decide,
   fun u hu => C6_arb_metadata.2.1 [("x", Json.str "y")] (by decide) u hu,
   by decide,
   C6_arb_metadata.2.2 [("@@a", Json.str "b")] (by decide)⟩

/-- C7: with no target locale the go-i18n store uses `en` with categories
`[one, other]`; a multistring with no more forms than the tag list is
re-expanded to exactly one entry per category, pairing forms with
category names positionally and padding the missing trailing forms with
empty strings; in particular a single-form unit against `en` emits a
2-entry translation object whose second entry is empty. -/
theorem C7_goi18n_plural_padding :
    GoI18NJsonFile.plural_tags none = ["one", "other"]
    ∧ (∀ (forms ptags : List String), forms.length ≤ ptags.length →
        GoI18NJsonUnit.translationValue (UVal.ms forms) ptags
          = Json.obj (ptags.zip
              ((forms ++ List.replicate (ptags.length - forms.length) "").map Json.str))
        ∧ (Json.objFields
            (GoI18NJsonUnit.translationValue (UVal.ms forms) ptags)).length
            = ptags.length)
    ∧ (∀ (idv s : String),
        GoI18NJsonUnit.getvalue { id := idv, notes := "", target := UVal.ms [s] }
            (GoI18NJsonFile.plural_tags none)
          = [("id", Json.str idv),
             ("translation",
               Json.obj [("one", Json.str s), ("other", Json.str "")])]) := by
  refine ⟨rfl, ?_, fun idv s => rfl⟩
  intro forms ptags hlen
  have hstr : (if ptags.length > forms.length
        then forms ++ List.replicate (ptags.length - forms.length) "" else forms)
      = forms ++ List.replicate (ptags.length - forms.length) "" := by
    by_cases hgt : ptags.length > forms.length
    · rw [if_pos hgt]
    · rw [if_neg hgt]
      have h0 : ptags.length - forms.length = 0 := by omega
      simp [h0]
  have hpadlen : ptags.length
      ≤ (forms ++ List.replicate (ptags.length - forms.length) "").length := by
    rw [List.length_append, List.length_replicate]
    omega
  have hval : GoI18NJsonUnit.translationValue (UVal.ms forms) ptags
      = Json.obj (ptags.zip
          ((forms ++ List.replicate (ptags.length - forms.length) "").map Json.str)) := by
    unfold GoI18NJsonUnit.translationValue
    simp only [hstr]
    rw [enum_map_getD Json.str "" ptags _ hpadlen]
  refine ⟨hval, ?_⟩
  rw [hval]
  simp only [Json.objFields, List.length_zip, List.length_map]
  rw [List.length_append, List.length_replicate]
  omega

/-- Witness for C7: the padding clause applied to a single form against
the two `en` categories. -/
theorem C7_goi18n_plural_padding_witness :
    ((["x"] : List String).length ≤ (["one", "other"] : List String).length)
    ∧ GoI18NJsonUnit.translationValue (UVal.ms ["x"]) ["one", "other"]
      = Json.obj ((["one", "other"] : List String).zip
          ((["x"] ++ List.replicate ((["one", "other"] : List String).length
            - (["x"] : List String).length) "").map Json.str)) :=
  ⟨by decide,
   (C7_goi18n_plural_padding.2.1 ["x"] ["one", "other"] (by decide)).1⟩

/-- C10 (implicit): a multistring with at least as many forms as the
store's plural tags is encoded with exactly one entry per tag — the tags
paired positionally with the first forms — silently dropping the extra
trailing forms. -/
theorem C10_goi18n_extra_forms :
    ∀ (forms ptags : List String), ptags.length ≤ forms.length →
      GoI18NJsonUnit.translationValue (UVal.ms forms) ptags
        = Json.obj (ptags.zip ((forms.take ptags.length).map Json.str))
      ∧ (Json.objFields
          (GoI18NJsonUnit.translationValue (UVal.ms forms) ptags)).length
          = ptags.length := by
  intro forms ptags hlen
  have hnotgt : ¬(ptags.length > forms.length) := by omega
  have hval : GoI18NJsonUnit.translationValue (UVal.ms forms) ptags
      = Json.obj (ptags.zip (forms.map Json.str)) := by
    simp only [GoI18NJsonUnit.translationValue, if_neg hnotgt]
    rw [enum_map_getD Json.str "" ptags forms hlen]
  have htake : ptags.zip ((forms.take ptags.length).map Json.str)
      = ptags.zip (forms.map Json.str) := by
    rw [List.map_take, zip_take_len]
  refine ⟨by rw [hval, htake], ?_⟩
  rw [hval]
  simp only [Json.objFields, List.length_zip, List.length_map]
  omega

/-- Witness for C10: three forms against the two `en` categories. -/
theorem C10_goi18n_extra_forms_witness :
    ((["one", "other"] : List String).length ≤ (["a", "b", "c"] : List String).length)
    ∧ GoI18NJsonUnit.translationValue (UVal.ms ["a", "b", "c"]) ["one", "other"]
      = Json.obj ((["one", "other"] : List String).zip
          (((["a", "b", "c"] : List String).take
            (["one", "other"] : List String).length).map Json.str)) :=
  ⟨by decide, (C10_goi18n_extra_forms ["a", "b", "c"] ["one", "other"] (by decide)).1⟩
